import Mathlib

/-!
Verification of the lzrs repository's core data structures against its
natural-language specification.

Shallow embedding conventions:
* Bytes are `Nat` values; well-formed buffers carry the side condition `< 256`.
* Rust `usize` arithmetic that can wrap (`wrapping_sub`) is modelled with an
  explicit `% 2^64`; `usize` subtraction that would panic on underflow only
  occurs under preconditions that rule the underflow out (noted per use).
* A Rust panic (failed `assert!`, out-of-bounds index) is modelled as `none`.
* Source loops are modelled as structurally recursive functions on an explicit
  fuel argument chosen large enough to be equivalent to the source loop; fuel
  exhaustion (only reachable where the Rust loop would diverge) yields the
  abnormal result.
* `Vec::with_capacity` + `set_len` leaves contents unspecified; the model uses
  zeros, and no verified statement depends on unwritten positions.
-/

/-- The modulus of `usize` arithmetic (64-bit target). -/
def USIZE : Nat := 2 ^ 64

/-- Rust `usize::wrapping_sub`. -/
def wrappingSub (a b : Nat) : Nat := (a + (USIZE - b % USIZE)) % USIZE

/-!
## Dictionary (lzrs2/src/dict.rs)
-/

/-- The `Dictionary` struct of lzrs2/src/dict.rs: ring of `dict_cap` history
bytes plus `la_cap` lookahead capacity, stored in one `buf` of
`dict_cap + la_cap` bytes whose tail mirrors the first `la_cap` bytes. -/
structure Dict where
  dict_cap : Nat
  la_cap : Nat
  buf : List Nat
  head : Nat
  dict_size : Nat
  la_size : Nat
deriving DecidableEq

/-- `Dictionary::wrap`: index mod the dictionary capacity, via bitwise AND
with `dict_cap - 1` (dict_cap is asserted to be a power of two). -/
def Dict.wrap (d : Dict) (i : Nat) : Nat := i &&& (d.dict_cap - 1)

/-- `Dictionary::wrap_sub`: `wrap(index.wrapping_sub(value))`. -/
def Dict.wrapSub (d : Dict) (i v : Nat) : Nat := d.wrap (wrappingSub i v)

/-- One store of `Dictionary::wrapped_copy`/`wrapped_copy_self`: write `c` at
`pos` and, when `pos < la_cap`, also at the mirror position `pos + dict_cap`. -/
def mirrorSet (C LA : Nat) (buf : List Nat) (pos c : Nat) : List Nat :=
  let b := buf.set pos c
  if pos < LA then b.set (pos + C) c else b

/-- Loop body of `Dictionary::wrapped_copy`: after the first store the write
position is wrapped with `(pos + 1) & (dict_cap - 1)`.  Note the FIRST store
uses `pos` as passed in, unwrapped, exactly as in the source. -/
def wrappedCopyGo (C LA : Nat) (buf : List Nat) (pos : Nat) : List Nat → List Nat
  | [] => buf
  | c :: rest => wrappedCopyGo C LA (mirrorSet C LA buf pos c) ((pos + 1) &&& (C - 1)) rest

/-- `Dictionary::wrapped_copy(buf, pos, len)`.  The source iterates over
`&buf[..len]` (all in-repo callers pass `len ≤ buf.len()`, so the `take` is
exact). -/
def Dict.wrappedCopy (d : Dict) (src : List Nat) (pos len : Nat) : Dict :=
  { d with buf := wrappedCopyGo d.dict_cap d.la_cap d.buf pos (src.take len) }

/-- Loop body of `Dictionary::wrapped_copy_self`: reads `buf[from]` from the
current buffer before each store (overlap is deliberate), wrapping both
cursors after each step. -/
def wrappedCopySelfGo (C LA : Nat) (buf : List Nat) (src pos : Nat) : Nat → List Nat
  | 0 => buf
  | n + 1 =>
    let c := buf.getD src 0
    wrappedCopySelfGo C LA (mirrorSet C LA buf pos c) ((src + 1) &&& (C - 1))
      ((pos + 1) &&& (C - 1)) n

/-- `Dictionary::clear_lookahead`. -/
def Dict.clearLookahead (d : Dict) : Dict := { d with la_size := 0 }

/-- `Dictionary::add_to_lookahead`: copies `min(|src|, la_cap - la_size)` bytes
to `head + la_size`, grows `la_size`, then shrinks `dict_size` to
`min(dict_size, dict_cap - la_size)`. Returns the count and the new state. -/
def Dict.addToLookahead (d : Dict) (src : List Nat) : Nat × Dict :=
  let len := min src.length (d.la_cap - d.la_size)
  let d1 := d.wrappedCopy src (d.head + d.la_size) len
  (len, { d1 with la_size := d.la_size + len,
                  dict_size := min d.dict_size (d.dict_cap - (d.la_size + len)) })

/-- `Dictionary::add_to_dictionary`: clears the lookahead, copies all of `src`
at `head`, grows `dict_size` (capped at `dict_cap`) and advances `head`. -/
def Dict.addToDictionary (d : Dict) (src : List Nat) : Dict :=
  let d1 := d.clearLookahead.wrappedCopy src d.head src.length
  { d1 with dict_size := min (d.dict_size + src.length) d.dict_cap,
            head := d.wrap (d.head + src.length) }

/-- `Dictionary::commit_lookahead_bytes(n)`: asserts `n ≤ la_size` (else
panic, modelled as `none`), returns the slice `buf[head .. head + n]` and the
state with `head` advanced, `dict_size` grown by `n` (the source does NOT cap
it at `dict_cap`) and `la_size` shrunk by `n`. -/
def Dict.commitLookaheadBytes (d : Dict) (n : Nat) : Option (List Nat × Dict) :=
  if n ≤ d.la_size then
    some ((d.buf.drop d.head).take n,
      { d with head := d.wrap (d.head + n),
               dict_size := d.dict_size + n,
               la_size := d.la_size - n })
  else none

/-- `Dictionary::dictionary()`: the two slices covering the valid history. -/
def Dict.dictionarySlices (d : Dict) : List Nat × List Nat :=
  let tail := d.wrapSub d.head d.dict_size
  if tail > d.head then
    ((d.buf.drop tail).take (d.dict_cap - tail), d.buf.take d.head)
  else
    ((d.buf.drop tail).take (d.head - tail), [])

/-- `Dictionary::lookahead()`: the slice `buf[head .. head + la_size]`. -/
def Dict.lookaheadSlice (d : Dict) : List Nat := (d.buf.drop d.head).take d.la_size

/-- `Dictionary::read_unaligned_u64`: the little-endian 64-bit value formed by
`buf[p .. p+8]`, as a natural number. -/
def leVal8 (buf : List Nat) (p : Nat) : Nat :=
  buf.getD p 0 + 256 * (buf.getD (p + 1) 0 + 256 * (buf.getD (p + 2) 0 +
    256 * (buf.getD (p + 3) 0 + 256 * (buf.getD (p + 4) 0 + 256 * (buf.getD (p + 5) 0 +
      256 * (buf.getD (p + 6) 0 + 256 * buf.getD (p + 7) 0))))))

/-- The 8-bytes-at-a-time loop of `Dictionary::match_length`: while at least 8
bytes remain below `maxLen` and the two unaligned u64 loads agree, advance by
8.  Fuel `maxLen` always suffices (each step needs `maxLen - len ≥ 8`). -/
def fastScan (buf : List Nat) (pos hd maxLen : Nat) : Nat → Nat → Nat
  | 0, len => len
  | fuel + 1, len =>
    if 8 ≤ maxLen - len then
      if leVal8 buf (pos + len) = leVal8 buf (hd + len) then
        fastScan buf pos hd maxLen fuel (len + 8)
      else len
    else len

/-- The byte-at-a-time loop of `Dictionary::match_length`: while `len < maxLen`
and `buf[pos + len] == buf[head + len]`, advance by 1.  Fuel `maxLen` always
suffices. -/
def byteScan (buf : List Nat) (pos hd maxLen : Nat) : Nat → Nat → Nat
  | 0, len => len
  | fuel + 1, len =>
    if len < maxLen then
      if buf.getD (pos + len) 0 = buf.getD (hd + len) 0 then
        byteScan buf pos hd maxLen fuel (len + 1)
      else len
    else len

/-- `Dictionary::match_length(distance)`: asserts `distance < dict_size`
(else panic, modelled as `none`); returns 0 for an empty lookahead; otherwise
runs the 8-byte fast loop followed by the byte loop from
`pos = wrap_sub(head, distance + 1)`. -/
def Dict.matchLength (d : Dict) (distance : Nat) : Option Nat :=
  if distance < d.dict_size then
    some (if d.la_size = 0 then 0
      else
        let pos := d.wrapSub d.head (distance + 1)
        byteScan d.buf pos d.head d.la_size d.la_size
          (fastScan d.buf pos d.head d.la_size d.la_size 0))
  else none

/-- `Dictionary::load_match_into_lookahead(distance, length)`: asserts
`distance < dict_size` and `length + la_size ≤ la_cap`; copies `length` bytes
from `pos = wrap_sub(head, distance + 1)` to `head + la_size` byte by byte,
grows `la_size`, and returns `buf[pos .. pos + length]` of the new buffer.
Note that the source leaves `dict_size` unchanged. -/
def Dict.loadMatchIntoLookahead (d : Dict) (distance length : Nat) : Option (List Nat × Dict) :=
  if distance < d.dict_size ∧ length + d.la_size ≤ d.la_cap then
    let pos := d.wrapSub d.head (distance + 1)
    let buf1 := wrappedCopySelfGo d.dict_cap d.la_cap d.buf pos (d.head + d.la_size) length
    some ((buf1.drop pos).take length, { d with buf := buf1, la_size := d.la_size + length })
  else none

/-- `Dictionary::load_match_into_dictionary(distance, length)`: like the
above but the copy lands at `head`; clears the lookahead, grows `dict_size`
(capped) and advances `head`. -/
def Dict.loadMatchIntoDictionary (d : Dict) (distance length : Nat) : Option (List Nat × Dict) :=
  if distance < d.dict_size then
    let pos := d.wrapSub d.head (distance + 1)
    let buf1 := wrappedCopySelfGo d.dict_cap d.la_cap d.buf pos d.head length
    some ((buf1.drop pos).take length,
      { d with buf := buf1, la_size := 0,
               dict_size := min (d.dict_size + length) d.dict_cap,
               head := d.wrap (d.head + length) })
  else none

/-- `<Dictionary as io::Write>::flush`: commits the whole pending lookahead
(`commit_lookahead_bytes(la_size)`, whose assertion trivially holds) and
returns `Ok(())`. -/
def Dict.flush (d : Dict) : Option Dict := (d.commitLookaheadBytes d.la_size).map (fun p => p.2)

/-- `Dictionary::new(dict_cap, la_cap)`: asserts that `dict_cap` is a nonzero
power of two via `(dict_cap - 1) & dict_cap == 0 && dict_cap != 0`; `la_cap`
is NOT validated.  For `dict_cap = 0` the Rust subtraction underflows, which
also makes construction fail, matching `none` here (Nat subtraction gives
`0 - 1 = 0`, and the `dict_cap != 0` conjunct then fails). -/
def Dict.new (dict_cap la_cap : Nat) : Option Dict :=
  if (dict_cap - 1) &&& dict_cap = 0 ∧ dict_cap ≠ 0 then
    some ⟨dict_cap, la_cap, List.replicate (dict_cap + la_cap) 0, 0, 0, 0⟩
  else none

/-- Representation invariants of a `Dictionary` value as laid out by
`Dictionary::new` and the data model of the specification: buffer size,
head within the ring, lookahead within capacity, `la_cap ≤ dict_cap`,
byte-valued contents, and `dict_cap` a 64-bit power of two. -/
def DictWF (d : Dict) : Prop :=
  d.buf.length = d.dict_cap + d.la_cap ∧
  d.head < d.dict_cap ∧
  d.la_size ≤ d.la_cap ∧
  d.la_cap ≤ d.dict_cap ∧
  (∀ x ∈ d.buf, x < 256) ∧
  ∃ k, k ≤ 64 ∧ d.dict_cap = 2 ^ k

/-- The mirror invariant: the byte at `dict_cap + i` duplicates `buf[i]` for
every physical index `i < la_cap`. -/
def DictMirror (d : Dict) : Prop :=
  ∀ i < d.la_cap, d.buf.getD (d.dict_cap + i) 0 = d.buf.getD i 0

/-!
## RingBuf (lzrs2/src/buffer/ringbuf.rs)
-/

/-- The `RingBuf` struct: physical storage, write head, filled length, and
total bytes ever written. -/
structure RingBuf where
  buf : List Nat
  head : Nat
  len : Nat
  n : Nat
deriving DecidableEq

/-- The doubling loop of `usize::next_power_of_two`: starting from 1, double
until reaching `n`.  Fuel `n` suffices (the power at least doubles each step). -/
def nextPow2Go (n : Nat) : Nat → Nat → Nat
  | 0, power => power
  | fuel + 1, power => if power < n then nextPow2Go n fuel (power * 2) else power

/-- `usize::next_power_of_two`: the smallest power of two that is `≥ n`
(1 for `n = 0`). -/
def nextPow2 (n : Nat) : Nat := nextPow2Go n n 1

/-- `RingBuf::with_capacity`: rounds the capacity up to the next power of two;
contents unspecified (zeros here), counters zero. -/
def RingBuf.withCapacity (capacity : Nat) : RingBuf :=
  ⟨List.replicate (nextPow2 capacity) 0, 0, 0, 0⟩

/-- Contiguous byte-wise store of `src` into `buf` starting at `pos`.  The
source copies each contiguous segment in 8-byte chunks plus a byte-wise
remainder; both write exactly these bytes to exactly these positions. -/
def setRange : List Nat → Nat → List Nat → List Nat
  | buf, _, [] => buf
  | buf, pos, c :: rest => setRange (buf.set pos c) (pos + 1) rest

/-- The loop of `<RingBuf as io::Write>::write`: repeatedly copy
`min(|src|, capacity - head)` bytes ahead of `head` and wrap `head`.  Fuel
`|src|` suffices since every pass consumes at least one byte (the
`buf.length ≤ hd` guard is unreachable: `head` stays below the capacity). -/
def writeGo : List Nat → Nat → Nat → List Nat → List Nat × Nat
  | buf, hd, _, [] => (buf, hd)
  | buf, hd, 0, _ :: _ => (buf, hd)
  | buf, hd, fuel + 1, src =>
    if buf.length ≤ hd then (buf, hd)
    else
      let ahead := min src.length (buf.length - hd)
      writeGo (setRange buf hd (src.take ahead)) ((hd + ahead) &&& (buf.length - 1)) fuel
        (src.drop ahead)

/-- `<RingBuf as io::Write>::write`: runs the copy loop, then sets
`len = min(len + |src|, capacity)` and `n += |src|`. -/
def RingBuf.write (rb : RingBuf) (src : List Nat) : RingBuf :=
  let p := writeGo rb.buf rb.head src.length src
  { buf := p.1, head := p.2, len := min (rb.len + src.length) rb.buf.length,
    n := rb.n + src.length }

/-- `RingBuf::wrap`: index AND `capacity - 1`. -/
def RingBuf.wrap (rb : RingBuf) (i : Nat) : Nat := i &&& (rb.buf.length - 1)

/-- `<usize as BufferIndex<RingBuf>>::get`: absent when `p ≥ n` or
`p + capacity < n`, otherwise `buf[wrap(p)]`. -/
def RingBuf.get (rb : RingBuf) (p : Nat) : Option Nat :=
  if p ≥ rb.n ∨ p + rb.buf.length < rb.n then none
  else rb.buf[rb.wrap p]?

/-!
## Compressor (src/src/writer.rs)
-/

/-- The token alphabet of src/src/writer.rs. -/
inductive Token
  | literal (byte : Nat)
  | rep (distance : Nat) (length : Nat)
deriving DecidableEq

/-- The `u32::MAX` sentinel used in `map`/`chain`. -/
def U32MAX : Nat := 2 ^ 32 - 1

/-- The `Compressor` struct of src/src/writer.rs (the sink and `write_buf`
carry no state relevant to the emitted tokens: `write_token` is a no-op). -/
structure Compressor where
  dict_size : Nat
  dict : List Nat
  head : Nat
  map : List Nat
  chain : List Nat
deriving DecidableEq

/-- `Compressor::new(inner, config)` state: empty dictionary and chain, map
full of the `u32::MAX` sentinel.  (`new` additionally panics when the
configured `dict_size` exceeds `u32::MAX`; the states studied here use small
configurations.) -/
def mkCompressor (dict_size : Nat) : Compressor :=
  ⟨dict_size, [], 0, List.replicate 256 U32MAX, []⟩

/-- `Compressor::distance(index)`: distance from the head, where 0 means the
last byte added.  Both subtractions stay in range for the in-repo call sites
(`index < dict_size`, and `dict_size - index + head ≥ 1`). -/
def Compressor.distance (c : Compressor) (index : Nat) : Nat :=
  if c.head > index then c.head - index - 1 else c.dict_size - index + c.head - 1

/-- `Compressor::next_match_index(last, lookahead)`: `none` models the panic
of `lookahead[0]` on an empty lookahead; `some none` is chain end; `some
(some i)` is the next candidate.  `chain[last]` is indexed with a previously
returned candidate, which is always in bounds; `map` has 256 entries and is
indexed by a byte. -/
def Compressor.nextMatchIndex (c : Compressor) (last : Option Nat) (la : List Nat) :
    Option (Option Nat) :=
  match la with
  | [] => none
  | b :: _ =>
    let index := match last with
      | some l => c.chain.getD l U32MAX
      | none => c.map.getD b U32MAX
    some (match c.dict[index]? with
      | some item => if item = b then some index else none
      | none => none)

/-- The loop of `Compressor::match_len`: compares
`dict[(at + (len % over_len)) % dict_size]` against `lookahead[len]` and
increments `len` while they agree.  Either index going out of bounds is the
panic the source would hit, modelled as `none` (`lookahead[len]` has NO bound
check against `lookahead.len()`).  Fuel `|lookahead| + 1` always reaches the
mismatch or the panic; a `dict_size` of zero would make the source divide by
zero, also `none`. -/
def matchLenGo (c : Compressor) (at0 overLen : Nat) (la : List Nat) : Nat → Nat → Option Nat
  | 0, _ => none
  | fuel + 1, len =>
    if c.dict_size = 0 then none
    else
      match c.dict[(at0 + len % overLen) % c.dict_size]? with
      | none => none
      | some dv =>
        match la[len]? with
        | none => none
        | some lv =>
          if dv = lv then matchLenGo c at0 overLen la fuel (len + 1) else some len

/-- `Compressor::match_len(at, lookahead)` with `over_len = distance(at) + 1`. -/
def Compressor.matchLen (c : Compressor) (at0 : Nat) (la : List Nat) : Option Nat :=
  matchLenGo c at0 (c.distance at0 + 1) la (la.length + 1) 0

/-- The `while let` chain walk of `Compressor::next_token`, tracking the best
`(length, index)` pair (`len > best.0` to replace).  Fuel `|dict| + 1` covers
any cycle-free traversal; a cyclic chain makes the source loop forever, here
fuel exhaustion yields the abnormal `none`. -/
def nextTokenGo (c : Compressor) (la : List Nat) :
    Nat → Option Nat → Nat × Option Nat → Option (Nat × Token)
  | 0, _, _ => none
  | fuel + 1, last, best =>
    match c.nextMatchIndex last la with
    | none => none
    | some none =>
      match best with
      | (len, some index) => some (len, Token.rep (c.distance index) len)
      | (_, none) =>
        match la with
        | [] => none
        | b :: _ => some (1, Token.literal b)
    | some (some idx) =>
      match c.matchLen idx la with
      | none => none
      | some len =>
        nextTokenGo c la fuel (some idx) (if best.1 < len then (len, some idx) else best)

/-- `Compressor::next_token(lookahead)`: the number of bytes consumed and the
token to emit. -/
def Compressor.nextToken (c : Compressor) (la : List Nat) : Option (Nat × Token) :=
  nextTokenGo c la (c.dict.length + 1) none (0, none)

/-- `Compressor::write_to_dictionary(bytes)`: per byte, thread it through
`map`/`chain` and store it at `head` (pushing while the dictionary is still
growing), then advance `head` modulo `dict_size`. -/
def Compressor.writeToDictionary (c : Compressor) (bytes : List Nat) : Compressor :=
  bytes.foldl (fun c b =>
    let fm := c.map.getD b U32MAX
    let map1 := c.map.set b c.head
    if c.dict.length < c.dict_size then
      { c with dict := c.dict ++ [b], chain := c.chain ++ [fm], map := map1,
               head := (c.head + 1) % c.dict_size }
    else
      { c with dict := c.dict.set c.head b, chain := c.chain.set c.head fm, map := map1,
               head := (c.head + 1) % c.dict_size }) c

/-- `<Compressor as io::Write>::write(buf)`: one token per call; consumes
`consumed` bytes into the dictionary (`write_token` buffers nothing). -/
def Compressor.write (c : Compressor) (buf : List Nat) : Option (Compressor × Nat × Token) :=
  match c.nextToken buf with
  | none => none
  | some (consumed, tok) => some (c.writeToDictionary (buf.take consumed), consumed, tok)

/-- Driving `Compressor::write` over a whole input, as `write_all` does:
call `write` on the remaining input until it is empty, collecting the emitted
tokens.  Every successful call consumes at least one byte, so fuel `|input|`
suffices (`consumed = 0` cannot happen; guarded for totality). -/
def compressGo (fuel : Nat) (c : Compressor) (input : List Nat) : Option (List Token) :=
  match fuel, input with
  | _, [] => some []
  | 0, _ :: _ => none
  | fuel + 1, b :: rest =>
    match c.write (b :: rest) with
    | none => none
    | some (c1, consumed, tok) =>
      if consumed = 0 then none
      else (compressGo fuel c1 ((b :: rest).drop consumed)).map (fun ts => tok :: ts)

/-- Compress a whole input with a fresh state. -/
def compress (c : Compressor) (input : List Nat) : Option (List Token) :=
  compressGo input.length c input

/-!
## Decidability and concrete states used in the verification
-/

instance (d : Dict) : Decidable (DictMirror d) := by
  unfold DictMirror
  infer_instance

/-- The compressor state after `write(b"a")` on a fresh 16-byte-dictionary
compressor (`Config { dict_size: 16 }`). -/
def compAfterA : Compressor :=
  match Compressor.write (mkCompressor 16) [97] with
  | some p => p.1
  | none => mkCompressor 16

/-- `Dictionary::new(8, 4)` followed by `add_to_dictionary` of eight bytes:
a full history (`dict_size = dict_cap = 8`), empty lookahead. -/
def dC3base : Dict :=
  Dict.addToDictionary ⟨8, 4, List.replicate 12 0, 0, 0, 0⟩ [1, 2, 3, 4, 5, 6, 7, 8]

/-- `Dictionary::new(8, 4)` followed by `add_to_dictionary` of six bytes:
`head = 6`, `dict_size = 6`. -/
def dC4a : Dict :=
  Dict.addToDictionary ⟨8, 4, List.replicate 12 0, 0, 0, 0⟩ [1, 2, 3, 4, 5, 6]

/-- `dC4a` after `add_to_lookahead(&[7, 8])`: the lookahead reaches the end
of the ring (`head + la_size = 8 = dict_cap`). -/
def dC4b : Dict := (dC4a.addToLookahead [7, 8]).2

/-- `dC4b` after `add_to_lookahead(&[9])`: the first store of `wrapped_copy`
lands at unwrapped position `head + la_size = 8`. -/
def dC4c : Dict := (dC4b.addToLookahead [9]).2

/-- A `Dictionary` state with `dict_size = dict_cap = 4` and one pending
lookahead byte (reachable via `add_to_dictionary` of four bytes followed by
`load_match_into_lookahead(0, 1)`, which leaves `dict_size` untouched). -/
def dC6 : Dict := ⟨4, 4, List.replicate 8 0, 0, 4, 1⟩

/-- A well-formed `Dictionary` state used to instantiate the amended commit
specification: `dict_cap = 8`, `la_cap = 4`, `head = 1`, two history bytes and
three lookahead bytes. -/
def dC6w : Dict := ⟨8, 4, [10, 11, 12, 13, 14, 15, 16, 17, 10, 11, 12, 13], 1, 2, 3⟩

/-- `Dictionary::new(4, 2)` followed by `add_to_dictionary(b"\x01\x02\x03\x04")`:
a full history, `head = 0`. -/
def dC7 : Dict :=
  Dict.addToDictionary ⟨4, 2, List.replicate 6 0, 0, 0, 0⟩ [1, 2, 3, 4]

/-- `Dictionary::new(32, 16)`, `add_to_dictionary(b"--1234567+1234--")`,
`add_to_lookahead(b"1234567+1234567+")`: the unaligned-fast-path match test
state of the source. -/
def dC5 : Dict :=
  ((Dict.addToDictionary ⟨32, 16, List.replicate 48 0, 0, 0, 0⟩
    [45, 45, 49, 50, 51, 52, 53, 54, 55, 43, 49, 50, 51, 52, 45, 45]).addToLookahead
      [49, 50, 51, 52, 53, 54, 55, 43, 49, 50, 51, 52, 53, 54, 55, 43]).2

/-- The successful result of `Dictionary::new(4, 0)`. -/
def dNew40 : Dict := ⟨4, 0, List.replicate 4 0, 0, 0, 0⟩

/-- A well-formed `Dictionary` state with pending lookahead for the flush
specification: `dict_cap = 8`, `la_cap = 4`, `head = 2`, three lookahead bytes. -/
def dC10 : Dict := ⟨8, 4, [7, 7, 7, 7, 7, 7, 7, 7, 7, 7, 7, 7], 2, 2, 3⟩

/-- The capacity-4 ring buffer after writing `b"abc"` and then `b"foo"`
(scenario S4 of the specification). -/
def rbEx : RingBuf := ((RingBuf.withCapacity 4).write [97, 98, 99]).write [102, 111, 111]

/-!
## Helper lemmas
-/

/-- Bitwise AND with `2^k - 1` is reduction modulo `2^k`, so `Dictionary::wrap`
is the mathematical remainder when `dict_cap` is a power of two. -/
theorem dictWrap_eq_mod (d : Dict) (k : Nat) (h : d.dict_cap = 2 ^ k) (i : Nat) :
    d.wrap i = i % d.dict_cap := by
  unfold Dict.wrap
  rw [h]
  exact Nat.and_pow_two_sub_one_eq_mod i k

/-- `RingBuf::wrap` is reduction modulo the capacity when the capacity is a
power of two. -/
theorem ringWrap_eq_mod (rb : RingBuf) (k : Nat) (h : rb.buf.length = 2 ^ k) (i : Nat) :
    rb.wrap i = i % rb.buf.length := by
  unfold RingBuf.wrap
  rw [h]
  exact Nat.and_pow_two_sub_one_eq_mod i k

/-- Indexing into a dropped list shifts the index. -/
theorem getElem?_drop_add {α : Type} (n : Nat) : ∀ (l : List α) (i : Nat),
    (l.drop n)[i]? = l[n + i]? := by
  induction n with
  | zero => intro l i; simp
  | succ n ih =>
    intro l i
    cases l with
    | nil => simp
    | cons a t => simp [Nat.succ_add, ih t i]

/-- `Dictionary::wrap_sub(head, v)` reduced to arithmetic: it is below
`dict_cap` and adding back `v` returns to `head` modulo `dict_cap`. -/
theorem Dict.wrapSub_spec (d : Dict) (k : Nat) (hk : k ≤ 64) (hcap : d.dict_cap = 2 ^ k)
    (i v : Nat) :
    d.wrapSub i v < d.dict_cap ∧ (d.wrapSub i v + v) % d.dict_cap = i % d.dict_cap := by
  have hpos : 0 < d.dict_cap := hcap ▸ Nat.two_pow_pos k
  have hdvd : d.dict_cap ∣ USIZE := by
    rw [hcap]
    exact Nat.pow_dvd_pow 2 hk
  have hw : d.wrapSub i v = wrappingSub i v % d.dict_cap := dictWrap_eq_mod d k hcap _
  constructor
  · rw [hw]; exact Nat.mod_lt _ hpos
  · rw [hw]
    unfold wrappingSub
    rw [Nat.mod_mod_of_dvd _ hdvd, Nat.mod_add_mod]
    have hsplit : i + (USIZE - v % USIZE) + v = i + USIZE + USIZE * (v / USIZE) := by
      have h1 : v % USIZE < USIZE := Nat.mod_lt v (by decide)
      have h2 : USIZE * (v / USIZE) + v % USIZE = v := Nat.div_add_mod v USIZE
      omega
    rw [hsplit]
    obtain ⟨c, hc⟩ := hdvd
    rw [hc, Nat.mul_assoc, Nat.add_mul_mod_self_left, Nat.add_mul_mod_self_left]

/-- Shared specification of `Dictionary::commit_lookahead_bytes` on a
well-formed state: the returned slice is `buf[head .. head + n]`, `head`
advances modulo `dict_cap`, `dict_size` grows by exactly `n`, `la_size`
shrinks by `n`, and the buffer and capacities are untouched. -/
theorem commitAux (d : Dict) (n : Nat) (hWF : DictWF d) (hn : n ≤ d.la_size) :
    ∃ s d2, d.commitLookaheadBytes n = some (s, d2) ∧
      s.length = n ∧ (∀ i < n, s[i]? = d.buf[d.head + i]?) ∧
      d2.head = (d.head + n) % d.dict_cap ∧
      d2.dict_size = d.dict_size + n ∧
      d2.la_size = d.la_size - n ∧
      d2.buf = d.buf ∧ d2.dict_cap = d.dict_cap ∧ d2.la_cap = d.la_cap := by
  obtain ⟨hbuf, hhead, hla, hlc, hbytes, k, hk, hcap⟩ := hWF
  refine ⟨(d.buf.drop d.head).take n,
    { d with head := d.wrap (d.head + n), dict_size := d.dict_size + n,
             la_size := d.la_size - n }, ?_, ?_, ?_, ?_, rfl, rfl, rfl, rfl, rfl⟩
  · unfold Dict.commitLookaheadBytes
    rw [if_pos hn]
  · rw [List.length_take, List.length_drop]
    omega
  · intro i hi
    rw [List.getElem?_take_of_lt hi, getElem?_drop_add]
  · exact dictWrap_eq_mod d k hcap _

/-- The check `(d - 1) & d == 0 && d != 0` of `Dictionary::new` accepts
exactly the powers of two. -/
theorem sub_one_land_self_eq_zero_iff (d : Nat) (hd : d ≠ 0) :
    (d - 1) &&& d = 0 ↔ ∃ k, d = 2 ^ k := by
  constructor
  · intro h
    refine ⟨d.log2, ?_⟩
    have hlow : 2 ^ d.log2 ≤ d := Nat.log2_self_le hd
    have hhigh : d < 2 ^ (d.log2 + 1) := Nat.lt_log2_self
    by_contra hne
    have hr : 2 ^ d.log2 + 1 ≤ d := by omega
    have hbit : ((d - 1) &&& d).testBit d.log2 = false := by
      rw [h]
      exact Nat.zero_testBit _
    rw [Nat.testBit_land] at hbit
    have hpow2 : 2 ^ (d.log2 + 1) = 2 * 2 ^ d.log2 := by
      rw [Nat.pow_succ, Nat.mul_comm]
    have hdq : d / 2 ^ d.log2 = 1 := by
      apply Nat.div_eq_of_lt_le <;> omega
    have hd1q : (d - 1) / 2 ^ d.log2 = 1 := by
      apply Nat.div_eq_of_lt_le <;> omega
    have hb1 : d.testBit d.log2 = true := by
      rw [Nat.testBit_to_div_mod, hdq]
      decide
    have hb2 : (d - 1).testBit d.log2 = true := by
      rw [Nat.testBit_to_div_mod, hd1q]
      decide
    rw [hb1, hb2] at hbit
    simp at hbit
  · rintro ⟨k, rfl⟩
    apply Nat.eq_of_testBit_eq
    intro i
    rw [Nat.testBit_land, Nat.zero_testBit, Nat.testBit_two_pow_sub_one]
    by_cases hik : i = k
    · subst hik
      simp
    · rw [Nat.testBit_two_pow_of_ne (fun hkk => hik hkk.symm)]
      simp

/-- Little-endian 64-bit loads are injective on byte-valued buffers: equal
`u64` values mean the eight underlying bytes agree pairwise. -/
theorem leVal8_inj (buf : List Nat) (hbytes : ∀ x ∈ buf, x < 256) (p q : Nat)
    (h : leVal8 buf p = leVal8 buf q) :
    buf.getD p 0 = buf.getD q 0 ∧
    buf.getD (p + 1) 0 = buf.getD (q + 1) 0 ∧
    buf.getD (p + 2) 0 = buf.getD (q + 2) 0 ∧
    buf.getD (p + 3) 0 = buf.getD (q + 3) 0 ∧
    buf.getD (p + 4) 0 = buf.getD (q + 4) 0 ∧
    buf.getD (p + 5) 0 = buf.getD (q + 5) 0 ∧
    buf.getD (p + 6) 0 = buf.getD (q + 6) 0 ∧
    buf.getD (p + 7) 0 = buf.getD (q + 7) 0 := by
  have hD : ∀ i : Nat, buf.getD i 0 < 256 := by
    intro i
    rw [List.getD_eq_getElem?_getD]
    cases hgi : buf[i]? with
    | none => simp
    | some v => simpa using hbytes v (List.getElem?_mem hgi)
  have hp0 := hD p
  have hp1 := hD (p + 1)
  have hp2 := hD (p + 2)
  have hp3 := hD (p + 3)
  have hp4 := hD (p + 4)
  have hp5 := hD (p + 5)
  have hp6 := hD (p + 6)
  have hp7 := hD (p + 7)
  have hq0 := hD q
  have hq1 := hD (q + 1)
  have hq2 := hD (q + 2)
  have hq3 := hD (q + 3)
  have hq4 := hD (q + 4)
  have hq5 := hD (q + 5)
  have hq6 := hD (q + 6)
  have hq7 := hD (q + 7)
  unfold leVal8 at h
  omega

/-- With the mirror invariant, a straight-line read at `q + i` (with `q` in
the ring and `i` within the lookahead capacity) equals the wrapped read at
`(q + i) % dict_cap`. -/
theorem straight_getD (C LA : Nat) (buf : List Nat) (hLA : LA ≤ C)
    (hmirror : ∀ i < LA, buf.getD (C + i) 0 = buf.getD i 0)
    (q : Nat) (hq : q < C) (i : Nat) (hi : i < LA) :
    buf.getD (q + i) 0 = buf.getD ((q + i) % C) 0 := by
  by_cases hlt : q + i < C
  · rw [Nat.mod_eq_of_lt hlt]
  · have hmod : (q + i) % C = q + i - C := by
      rw [Nat.mod_eq_sub_mod (by omega)]
      exact Nat.mod_eq_of_lt (by omega)
    have hj : q + i - C < LA := by omega
    have hmir := hmirror (q + i - C) hj
    rw [hmod, ← hmir]
    congr 1
    omega

/-- Soundness of the fast loop: its result stays within `maxLen` and every
position strictly below it is a byte-for-byte (straight-line) match. -/
theorem fastScan_sound (buf : List Nat) (hbytes : ∀ x ∈ buf, x < 256) (pos hd maxLen : Nat) :
    ∀ (fuel len : Nat), len ≤ maxLen →
      (∀ i < len, buf.getD (pos + i) 0 = buf.getD (hd + i) 0) →
      fastScan buf pos hd maxLen fuel len ≤ maxLen ∧
      (∀ i < fastScan buf pos hd maxLen fuel len,
        buf.getD (pos + i) 0 = buf.getD (hd + i) 0) := by
  intro fuel
  induction fuel with
  | zero =>
    intro len hl hinv
    exact ⟨hl, hinv⟩
  | succ f ih =>
    intro len hl hinv
    by_cases h1 : 8 ≤ maxLen - len
    · by_cases h2 : leVal8 buf (pos + len) = leVal8 buf (hd + len)
      · have hstep : fastScan buf pos hd maxLen (f + 1) len =
            fastScan buf pos hd maxLen f (len + 8) := by
          simp [fastScan, h1, h2]
        rw [hstep]
        have hbytes8 := leVal8_inj buf hbytes (pos + len) (hd + len) h2
        apply ih (len + 8) (by omega)
        intro i hi
        by_cases hilen : i < len
        · exact hinv i hilen
        · obtain ⟨j, hj8, rfl⟩ : ∃ j, j < 8 ∧ i = len + j := ⟨i - len, by omega, by omega⟩
          have hpj : pos + (len + j) = pos + len + j := by rw [Nat.add_assoc]
          have hhj : hd + (len + j) = hd + len + j := by rw [Nat.add_assoc]
          rw [hpj, hhj]
          interval_cases j
          · simpa using hbytes8.1
          · exact hbytes8.2.1
          · exact hbytes8.2.2.1
          · exact hbytes8.2.2.2.1
          · exact hbytes8.2.2.2.2.1
          · exact hbytes8.2.2.2.2.2.1
          · exact hbytes8.2.2.2.2.2.2.1
          · exact hbytes8.2.2.2.2.2.2.2
      · have hstep : fastScan buf pos hd maxLen (f + 1) len = len := by
          simp [fastScan, h1, h2]
        rw [hstep]
        exact ⟨hl, hinv⟩
    · have hstep : fastScan buf pos hd maxLen (f + 1) len = len := by
        simp [fastScan, h1]
      rw [hstep]
      exact ⟨hl, hinv⟩

/-- Exactness of the byte loop: starting from a straight-line matching prefix
with enough fuel, it returns the length of the maximal matching prefix — all
positions below the result match, and the result either reaches `maxLen` or
sits on a mismatch. -/
theorem byteScan_spec (buf : List Nat) (pos hd maxLen : Nat) :
    ∀ (fuel len : Nat), maxLen ≤ len + fuel → len ≤ maxLen →
      (∀ i < len, buf.getD (pos + i) 0 = buf.getD (hd + i) 0) →
      byteScan buf pos hd maxLen fuel len ≤ maxLen ∧
      (∀ i < byteScan buf pos hd maxLen fuel len,
        buf.getD (pos + i) 0 = buf.getD (hd + i) 0) ∧
      (byteScan buf pos hd maxLen fuel len < maxLen →
        buf.getD (pos + byteScan buf pos hd maxLen fuel len) 0 ≠
          buf.getD (hd + byteScan buf pos hd maxLen fuel len) 0) := by
  intro fuel
  induction fuel with
  | zero =>
    intro len hf hl hinv
    have h0 : byteScan buf pos hd maxLen 0 len = len := rfl
    rw [h0]
    exact ⟨hl, hinv, fun hlt => absurd hlt (by omega)⟩
  | succ f ih =>
    intro len hf hl hinv
    by_cases h1 : len < maxLen
    · by_cases h2 : buf.getD (pos + len) 0 = buf.getD (hd + len) 0
      · have hstep : byteScan buf pos hd maxLen (f + 1) len =
            byteScan buf pos hd maxLen f (len + 1) := by
          show (if len < maxLen then
              if buf.getD (pos + len) 0 = buf.getD (hd + len) 0 then
                byteScan buf pos hd maxLen f (len + 1)
              else len
            else len) = byteScan buf pos hd maxLen f (len + 1)
          rw [if_pos h1, if_pos h2]
        rw [hstep]
        apply ih (len + 1) (by omega) (by omega)
        intro i hi
        by_cases hilen : i < len
        · exact hinv i hilen
        · have : i = len := by omega
          subst this
          exact h2
      · have hstep : byteScan buf pos hd maxLen (f + 1) len = len := by
          show (if len < maxLen then
              if buf.getD (pos + len) 0 = buf.getD (hd + len) 0 then
                byteScan buf pos hd maxLen f (len + 1)
              else len
            else len) = len
          rw [if_pos h1, if_neg h2]
        rw [hstep]
        exact ⟨hl, hinv, fun _ => h2⟩
    · have hstep : byteScan buf pos hd maxLen (f + 1) len = len := by
        show (if len < maxLen then
            if buf.getD (pos + len) 0 = buf.getD (hd + len) 0 then
              byteScan buf pos hd maxLen f (len + 1)
            else len
          else len) = len
        rw [if_neg h1]
      rw [hstep]
      exact ⟨hl, hinv, fun hlt => absurd hlt h1⟩

/-!
## Claim theorems
-/

/-- C1: REFUTED by the code (code bug).  Compressing the two-byte input
`b"aa"` on a fresh compressor with `dict_size = 16` panics: the second
`write` call finds the match for `'a'` and `match_len` runs past the end of
the lookahead (`lookahead[1]` with a one-byte lookahead), so no token
sequence for `b"aa"` is ever produced and the round-trip property fails for
this input. -/
theorem compress_roundtrip_fails_on_aa : compress (mkCompressor 16) [97, 97] = none := by
  decide

/-- C2: REFUTED by the code (code bug).  With the accepted configuration
`dict_size = 16`, the first `Compressor::write(b"a")` succeeds, but calling
`write(b"a")` again on the resulting state reaches the out-of-bounds index
`lookahead[len]` with `len = lookahead.len() = 1` inside `match_len` and
panics. -/
theorem compressor_write_panics_on_repeat :
    (Compressor.write (mkCompressor 16) [97]).isSome = true ∧
    Compressor.write compAfterA [97] = none := by
  decide

/-- C3: REFUTED by the code (code bug).  `dC3base` (reachable by
`Dictionary::new(8, 4)` followed by `add_to_dictionary` of eight bytes)
satisfies `dict_size + la_size ≤ dict_cap` (8 ≤ 8), and the call
`load_match_into_lookahead(0, 4)` meets both of its asserted preconditions,
yet the resulting state has `dict_size + la_size = 12 > 8 = dict_cap`
because the operation grows `la_size` without shrinking `dict_size`. -/
theorem load_match_breaks_size_invariant :
    dC3base.dict_size + dC3base.la_size ≤ dC3base.dict_cap ∧
    (dC3base.loadMatchIntoLookahead 0 4).map
      (fun p => (p.2.dict_size + p.2.la_size, p.2.dict_cap)) = some (12, 8) := by
  decide

/-- C4: REFUTED by the code (code bug).  `dC4b` (reachable from
`Dictionary::new(8, 4)` by `add_to_dictionary(&[1,...,6])` then
`add_to_lookahead(&[7, 8])`) satisfies the mirror invariant, but
`add_to_lookahead(&[9])` breaks it: `wrapped_copy` receives the unwrapped
start position `head + la_size = 8 = dict_cap`, stores the byte only at the
mirror slot `buf[8]` and never at `buf[0]`, leaving `buf[8] = 9 ≠ 1 =
buf[0]`. -/
theorem add_to_lookahead_breaks_mirror :
    DictMirror dC4b ∧ ¬ DictMirror dC4c := by
  decide

/-- C6 counterexample: the claim states `commit_lookahead_bytes(k)` sets
`dict_size` to `min(dict_size + k, dict_cap)`.  On the state `dC6`
(`dict_size = dict_cap = 4`, `la_size = 1`, reachable via
`add_to_dictionary` of four bytes followed by `load_match_into_lookahead(0,
1)`) committing one byte yields `dict_size = 5`, not `min(5, 4) = 4`: the
source adds without capping. -/
theorem commit_dict_size_not_capped :
    (dC6.commitLookaheadBytes 1).map (fun p => p.2.dict_size) = some 5 ∧
    min (dC6.dict_size + 1) dC6.dict_cap = 4 := by
  decide

/-- C7: REFUTED by the code (code bug).  After filling the dictionary
(`dict_size = dict_cap = 4`, via `new(4, 2)` and `add_to_dictionary` of four
bytes, leaving `head = 0`), `dictionary()` computes `tail = wrap_sub(head,
dict_size) = head` and takes the `tail ≤ head` branch, returning two empty
slices instead of the four-byte history. -/
theorem dictionary_slices_empty_when_full :
    dC7.dict_size = dC7.dict_cap ∧ dC7.dict_cap = 4 ∧ dC7.dictionarySlices = ([], []) := by
  decide

/-- C9 counterexample: the claim states construction fails when `la_cap >
dict_cap`, but `Dictionary::new(4, 8)` succeeds: the source only validates
that `dict_cap` is a nonzero power of two. -/
theorem dict_new_accepts_invalid_la_cap :
    Dict.new 4 8 = some ⟨4, 8, List.replicate 12 0, 0, 0, 0⟩ := by
  decide

/-- C5: CONFIRMED.  On a well-formed state satisfying the mirror invariant,
for any `distance < dict_size`, `match_length(distance)` returns (without
panicking) the largest `L ≤ la_size` such that `buf[(pos + i) % dict_cap] =
buf[(head + i) % dict_cap]` for all `i < L`, where `pos = wrap_sub(head,
distance + 1)` is below `dict_cap` and satisfies `(pos + distance + 1) %
dict_cap = head % dict_cap` (i.e. `pos = (head - distance - 1) mod
dict_cap`).  In particular the result is 0 when `la_size = 0`, and the
8-byte fast path computes exactly the byte-by-byte prefix length. -/
theorem matchLength_maximal (d : Dict) (distance : Nat) (hWF : DictWF d)
    (hmir : DictMirror d) (hdist : distance < d.dict_size) :
    ∃ L, d.matchLength distance = some L ∧ L ≤ d.la_size ∧
      (∀ i < L, d.buf.getD ((d.wrapSub d.head (distance + 1) + i) % d.dict_cap) 0 =
        d.buf.getD ((d.head + i) % d.dict_cap) 0) ∧
      (∀ m, m ≤ d.la_size →
        (∀ i < m, d.buf.getD ((d.wrapSub d.head (distance + 1) + i) % d.dict_cap) 0 =
          d.buf.getD ((d.head + i) % d.dict_cap) 0) → m ≤ L) ∧
      d.wrapSub d.head (distance + 1) < d.dict_cap ∧
      (d.wrapSub d.head (distance + 1) + (distance + 1)) % d.dict_cap =
        d.head % d.dict_cap := by
  obtain ⟨hbuf, hhead, hla, hlc, hbytes, k, hk, hcap⟩ := hWF
  obtain ⟨hPlt, hPadd⟩ := Dict.wrapSub_spec d k hk hcap d.head (distance + 1)
  have hsP : ∀ i < d.la_size,
      d.buf.getD (d.wrapSub d.head (distance + 1) + i) 0 =
        d.buf.getD ((d.wrapSub d.head (distance + 1) + i) % d.dict_cap) 0 :=
    fun i hi => straight_getD d.dict_cap d.la_cap d.buf hlc hmir _ hPlt i (lt_of_lt_of_le hi hla)
  have hsH : ∀ i < d.la_size,
      d.buf.getD (d.head + i) 0 = d.buf.getD ((d.head + i) % d.dict_cap) 0 :=
    fun i hi => straight_getD d.dict_cap d.la_cap d.buf hlc hmir d.head hhead i
      (lt_of_lt_of_le hi hla)
  by_cases hla0 : d.la_size = 0
  · refine ⟨0, ?_, Nat.zero_le _, by omega, by omega, hPlt, hPadd⟩
    unfold Dict.matchLength
    rw [if_pos hdist, if_pos hla0]
  · have hval : d.matchLength distance =
        some (byteScan d.buf (d.wrapSub d.head (distance + 1)) d.head d.la_size d.la_size
          (fastScan d.buf (d.wrapSub d.head (distance + 1)) d.head d.la_size d.la_size 0)) := by
      unfold Dict.matchLength
      rw [if_pos hdist, if_neg hla0]
    obtain ⟨hL0le, hL0inv⟩ :=
      fastScan_sound d.buf hbytes (d.wrapSub d.head (distance + 1)) d.head d.la_size
        d.la_size 0 (Nat.zero_le _) (fun i hi => absurd hi (Nat.not_lt_zero i))
    obtain ⟨hBle, hBinv, hBmax⟩ :=
      byteScan_spec d.buf (d.wrapSub d.head (distance + 1)) d.head d.la_size d.la_size
        (fastScan d.buf (d.wrapSub d.head (distance + 1)) d.head d.la_size d.la_size 0)
        (Nat.le_add_left _ _) hL0le hL0inv
    refine ⟨_, hval, hBle, ?_, ?_, hPlt, hPadd⟩
    · intro i hi
      have hiL : i < d.la_size := lt_of_lt_of_le hi hBle
      rw [← hsP i hiL, ← hsH i hiL]
      exact hBinv i hi
    · intro m hm hmeq
      by_contra hgt
      have hLlt : byteScan d.buf (d.wrapSub d.head (distance + 1)) d.head d.la_size d.la_size
          (fastScan d.buf (d.wrapSub d.head (distance + 1)) d.head d.la_size d.la_size 0) < m := by
        omega
      have hLla : byteScan d.buf (d.wrapSub d.head (distance + 1)) d.head d.la_size d.la_size
          (fastScan d.buf (d.wrapSub d.head (distance + 1)) d.head d.la_size d.la_size 0) <
            d.la_size := lt_of_lt_of_le hLlt hm
      have hstraight := hmeq _ hLlt
      rw [← hsP _ hLla, ← hsH _ hLla] at hstraight
      exact hBmax hLla hstraight

/-- C5 witness: on the state `dC5` (history `b"--1234567+1234--"`, lookahead
`b"1234567+1234567+"`, exercising the unaligned 8-byte fast path),
`match_length(13)` is 12, obtained through the maximality theorem. -/
theorem matchLength_maximal_example :
    dC5.matchLength 13 = some 12 ∧ 12 ≤ dC5.la_size := by
  obtain ⟨L, hL, hLle, -, -, -, -⟩ :=
    matchLength_maximal dC5 13
      (by unfold DictWF
          exact ⟨by decide, by decide, by decide, by decide, by decide, 5, by decide, by decide⟩)
      (by decide) (by decide)
  have h12 : dC5.matchLength 13 = some 12 := by decide
  rw [hL] at h12
  cases h12
  exact ⟨hL, hLle⟩

/-- C6 (amended): on a well-formed state, for `k ≤ la_size`,
`commit_lookahead_bytes(k)` returns the `k` bytes at physical positions
`head .. head + k`, advances `head` by `k` modulo `dict_cap`, grows
`dict_size` by exactly `k` (NOT capped at `dict_cap`), shrinks `la_size` by
`k`, and leaves the buffer contents and capacities unchanged. -/
theorem commit_lookahead_spec (d : Dict) (n : Nat) (hWF : DictWF d) (hn : n ≤ d.la_size) :
    ∃ s d2, d.commitLookaheadBytes n = some (s, d2) ∧
      s.length = n ∧ (∀ i < n, s[i]? = d.buf[d.head + i]?) ∧
      d2.head = (d.head + n) % d.dict_cap ∧
      d2.dict_size = d.dict_size + n ∧
      d2.la_size = d.la_size - n ∧
      d2.buf = d.buf ∧ d2.dict_cap = d.dict_cap ∧ d2.la_cap = d.la_cap :=
  commitAux d n hWF hn

/-- C6 witness: committing two bytes on the concrete well-formed state
`dC6w` (`head = 1`, `dict_size = 2`, `la_size = 3`) returns the bytes
`[11, 12]` with `head = 3`, `dict_size = 4`, `la_size = 1`. -/
theorem commit_lookahead_spec_example :
    (dC6w.commitLookaheadBytes 2).isSome = true ∧
    (dC6w.commitLookaheadBytes 2).map
      (fun p => (p.1, p.2.head, p.2.dict_size, p.2.la_size)) = some ([11, 12], 3, 4, 1) := by
  obtain ⟨s, d2, hc, -, -, -, -, -, -, -, -⟩ :=
    commit_lookahead_spec dC6w 2
      (by unfold DictWF
          exact ⟨by decide, by decide, by decide, by decide, by decide, 3, by decide, by decide⟩)
      (by decide)
  exact ⟨by rw [hc]; rfl, by decide⟩

/-- C8: CONFIRMED.  On any ring buffer state with a power-of-two capacity
whose counters satisfy the write invariant `len = min(n, capacity)`,
`get(p)` is absent exactly when `p` is outside the window `[n - len, n)`
(equivalently, when `p ≥ n` or `p + capacity < n`), and inside the window it
returns the byte stored at physical index `p % capacity`. -/
theorem ringbuf_get_spec (rb : RingBuf) (k p : Nat) (hC : rb.buf.length = 2 ^ k)
    (hlen : rb.len = min rb.n rb.buf.length) :
    (rb.get p = none ↔ ¬ (rb.n - rb.len ≤ p ∧ p < rb.n)) ∧
    ((rb.n - rb.len ≤ p ∧ p < rb.n) →
      rb.get p = rb.buf[p % rb.buf.length]? ∧
        (rb.buf[p % rb.buf.length]?).isSome = true) := by
  have hpos : 0 < rb.buf.length := hC ▸ Nat.two_pow_pos k
  unfold RingBuf.get
  by_cases hv : p ≥ rb.n ∨ p + rb.buf.length < rb.n
  · rw [if_pos hv]
    constructor
    · exact ⟨fun _ => by omega, fun _ => rfl⟩
    · intro hmem
      exfalso
      omega
  · rw [if_neg hv]
    rw [ringWrap_eq_mod rb k hC p]
    have hlt : p % rb.buf.length < rb.buf.length := Nat.mod_lt _ hpos
    have hsome : (rb.buf[p % rb.buf.length]?).isSome = true := by
      rw [List.getElem?_eq_getElem hlt]
      rfl
    constructor
    · constructor
      · intro hnone
        rw [hnone] at hsome
        exact absurd hsome (by decide)
      · intro hnmem
        exfalso
        omega
    · intro _
      exact ⟨rfl, hsome⟩

/-- C8 witness: scenario S4 — on the capacity-4 ring after writing `b"abc"`
then `b"foo"`, virtual position 1 is absent (overwritten) and virtual
position 5 reads `'o'` (111). -/
theorem ringbuf_get_spec_example : rbEx.get 1 = none ∧ rbEx.get 5 = some 111 := by
  constructor
  · exact (ringbuf_get_spec rbEx 2 1 (by decide) (by decide)).1.mpr (by decide)
  · have h := (ringbuf_get_spec rbEx 2 5 (by decide) (by decide)).2 (by decide)
    exact h.1.trans (by decide)

/-- C9 (amended): `Dictionary::new(dict_cap, la_cap)` succeeds exactly when
`dict_cap` is a nonzero power of two — `la_cap` is not validated at all (in
particular `la_cap = 0` and `la_cap > dict_cap` are accepted) — and on
success all three counters (`head`, `dict_size`, `la_size`) are zero. -/
theorem dict_new_spec (dc lc : Nat) :
    ((Dict.new dc lc).isSome = true ↔ dc ≠ 0 ∧ ∃ k, dc = 2 ^ k) ∧
    (∀ s, Dict.new dc lc = some s → s.head = 0 ∧ s.dict_size = 0 ∧ s.la_size = 0) := by
  constructor
  · unfold Dict.new
    by_cases h : (dc - 1) &&& dc = 0 ∧ dc ≠ 0
    · rw [if_pos h]
      refine ⟨fun _ => ⟨h.2, (sub_one_land_self_eq_zero_iff dc h.2).mp h.1⟩, fun _ => rfl⟩
    · rw [if_neg h]
      constructor
      · intro habs
        exact absurd habs (by decide)
      · rintro ⟨hne, hk⟩
        exact absurd ⟨(sub_one_land_self_eq_zero_iff dc hne).mpr hk, hne⟩ h
  · intro s hs
    unfold Dict.new at hs
    by_cases h : (dc - 1) &&& dc = 0 ∧ dc ≠ 0
    · rw [if_pos h] at hs
      injection hs with hs
      subst hs
      exact ⟨rfl, rfl, rfl⟩
    · rw [if_neg h] at hs
      exact absurd hs (by simp)

/-- C9 witness: `Dictionary::new(4, 0)` succeeds (a zero `la_cap` is
accepted) and yields the all-zero-counter state `dNew40`. -/
theorem dict_new_spec_example :
    (Dict.new 4 0).isSome = true ∧ Dict.new 4 0 = some dNew40 ∧
    dNew40.head = 0 ∧ dNew40.dict_size = 0 ∧ dNew40.la_size = 0 := by
  have h := dict_new_spec 4 0
  exact ⟨h.1.mpr ⟨by decide, 2, by decide⟩, by decide, h.2 dNew40 (by decide)⟩

/-- C10: CONFIRMED.  On a well-formed state, the `io::Write::flush`
implementation on `Dictionary` commits the entire pending lookahead and
returns `Ok(())`: afterwards `la_size = 0`, `head` has advanced by the old
`la_size` modulo `dict_cap`, `dict_size` has grown by the old `la_size`, and
the buffer bytes and capacities are unchanged. -/
theorem dict_flush_commits_all (d : Dict) (hWF : DictWF d) :
    ∃ d2, d.flush = some d2 ∧ d2.la_size = 0 ∧
      d2.head = (d.head + d.la_size) % d.dict_cap ∧
      d2.dict_size = d.dict_size + d.la_size ∧
      d2.buf = d.buf ∧ d2.dict_cap = d.dict_cap ∧ d2.la_cap = d.la_cap := by
  obtain ⟨s, d2, hcommit, -, -, hhd, hds, hls, hbuf2, hdc, hlc2⟩ :=
    commitAux d d.la_size hWF (le_refl _)
  refine ⟨d2, ?_, by omega, hhd, hds, hbuf2, hdc, hlc2⟩
  unfold Dict.flush
  rw [hcommit]
  rfl

/-- C10 witness: flushing the concrete state `dC10` (`head = 2`,
`dict_size = 2`, `la_size = 3`) commits all three pending bytes:
`head = 5`, `dict_size = 5`, `la_size = 0`, buffer untouched. -/
theorem dict_flush_commits_all_example :
    (dC10.flush).isSome = true ∧
    dC10.flush = some { dC10 with head := 5, dict_size := 5, la_size := 0 } := by
  obtain ⟨d2, hf, -, -, -, -, -, -⟩ :=
    dict_flush_commits_all dC10
      (by unfold DictWF
          exact ⟨by decide, by decide, by decide, by decide, by decide, 3, by decide, by decide⟩)
  exact ⟨by rw [hf]; rfl, by decide⟩
